import Mathlib

/-!
Verification development for the Taylor-series calculator engine
(`src/app.py`, class `TaylorCalculator` plus the `/calculate` route).

The engine delegates symbolic algebra to SymPy.  We shallowly embed the
fragment of SymPy the engine exercises: an immutable expression tree with
auto-evaluating constructors (SymPy's `Add`/`Mul`/`Pow` automatic
evaluation), structural differentiation, substitution that rebuilds only
changed nodes (SymPy's `_subs` returns `self` when nothing matched),
pre-order traversal, free-symbol enumeration, the string printer used for
length-based ordering, and a canonical polynomial simplifier standing in
for `sympy.simplify`.  The engine functions `parse_inputs`,
`decompose_function`, `compute_univariate_taylor`,
`substitute_expansions`, `calculate_series` and the route handler
`calculate` are then translated directly from `src/app.py`.
-/

namespace TaylorCalc

/-! ### Exact rational arithmetic

SymPy's `Rational` is exact, normalised rational arithmetic.  Mathlib's
`Rat` operations are `@[irreducible]`, which blocks kernel evaluation of
concrete runs of the engine, so we define the operations through the
kernel-computable normaliser `mkRat` and prove them equal to the
standard ring operations on `ℚ`. -/

/-- Rational addition through `mkRat` (equal to `a + b`, see
`rqAdd_eq`). -/
def rqAdd (a b : ℚ) : ℚ := mkRat (a.num * b.den + b.num * a.den) (a.den * b.den)

/-- Rational multiplication through `mkRat` (equal to `a * b`, see
`rqMul_eq`). -/
def rqMul (a b : ℚ) : ℚ := mkRat (a.num * b.num) (a.den * b.den)

/-- Rational inverse through `mkRat` (equal to `a⁻¹`, see `rqInv_eq`). -/
def rqInv (a : ℚ) : ℚ :=
  if a.num = 0 then 0
  else if a.num < 0 then mkRat (-(a.den : Int)) a.num.natAbs
  else mkRat a.den a.num.natAbs

/-- Rational natural power by iterated `rqMul`. -/
def rqPow (a : ℚ) : ℕ → ℚ
  | 0 => 1
  | k + 1 => rqMul (rqPow a k) a

/-- Rational division. -/
def rqDiv (a b : ℚ) : ℚ := rqMul a (rqInv b)

/-- Embedding of a natural number. -/
def rqOfNat (n : ℕ) : ℚ := mkRat (Int.ofNat n) 1

/-- Boolean strict comparison by cross multiplication (denominators are
positive). -/
def rqLt (a b : ℚ) : Bool := a.num * (b.den : Int) < b.num * (a.den : Int)

/-- SymPy expression trees over the node kinds the engine builds:
rational constants, named symbols, `Add`, `Mul`, `Pow` and the named
functions `sin`, `cos`, `log`.  SymPy has no subtraction or division
nodes: `a - b` is `Add(a, Mul(-1, b))` and `a / b` is
`Mul(a, Pow(b, -1))`; we follow that representation. -/
inductive Expr where
  | num (q : ℚ)
  | var (name : String)
  | add (a b : Expr)
  | mul (a b : Expr)
  | pow (a b : Expr)
  | sin (a : Expr)
  | cos (a : Expr)
  | log (a : Expr)
deriving DecidableEq, Repr

namespace Expr

/-- SymPy `is_Atom`: numbers and symbols are atoms. -/
def isAtom : Expr → Bool
  | num _ => true
  | var _ => true
  | _ => false

/-- Immediate arguments of a node (SymPy `.args` restricted to our kinds). -/
def args : Expr → List Expr
  | num _ => []
  | var _ => []
  | add a b => [a, b]
  | mul a b => [a, b]
  | pow a b => [a, b]
  | sin a => [a]
  | cos a => [a]
  | log a => [a]

/-- `sympy.preorder_traversal`: the node itself, then its arguments'
traversals in order.  Repeated subexpressions are yielded once per
position (no deduplication). -/
def preorder : Expr → List Expr
  | num q => [num q]
  | var s => [var s]
  | add a b => add a b :: (preorder a ++ preorder b)
  | mul a b => mul a b :: (preorder a ++ preorder b)
  | pow a b => pow a b :: (preorder a ++ preorder b)
  | sin a => sin a :: preorder a
  | cos a => cos a :: preorder a
  | log a => log a :: preorder a

/-- SymPy `free_symbols` (a set of symbol names; we keep the list
deduplicated, first occurrences kept). -/
def freeSymbols : Expr → List String
  | num _ => []
  | var s => [s]
  | add a b => (freeSymbols a ++ freeSymbols b).dedup
  | mul a b => (freeSymbols a ++ freeSymbols b).dedup
  | pow a b => (freeSymbols a ++ freeSymbols b).dedup
  | sin a => freeSymbols a
  | cos a => freeSymbols a
  | log a => freeSymbols a

end Expr

open Expr

/-- SymPy's auto-evaluating `Add`: numeric folding and removal of a zero
summand happen at construction time. -/
def mkAdd : Expr → Expr → Expr
  | .num a, .num b => .num (rqAdd a b)
  | .num a, y => if a = 0 then y else .add (.num a) y
  | x, .num b => if b = 0 then x else .add x (.num b)
  | x, y => .add x y

/-- SymPy's auto-evaluating `Mul`: numeric folding, and the identities
`0 * e = 0`, `1 * e = e` applied at construction time. -/
def mkMul : Expr → Expr → Expr
  | .num a, .num b => .num (rqMul a b)
  | .num a, y => if a = 0 then .num 0 else if a = 1 then y else .mul (.num a) y
  | x, .num b => if b = 0 then .num 0 else if b = 1 then x else .mul x (.num b)
  | x, y => .mul x y

/-- Numeric folding for `Pow` on rational base and exponent, mirroring
SymPy's evaluation on the integer-exponent cases the engine reaches. -/
def powFold (a q : ℚ) : Expr :=
  if q = 0 then .num 1
  else if q = 1 then .num a
  else if a = 1 then .num 1
  else if q.den = 1 ∧ 0 < q.num then .num (rqPow a q.num.toNat)
  else if q.den = 1 ∧ q.num < 0 ∧ a ≠ 0 then .num (rqPow (rqInv a) (-q.num).toNat)
  else .pow (.num a) (.num q)

/-- SymPy's auto-evaluating `Pow`: `e ** 0 = 1`, `e ** 1 = e`,
`1 ** e = 1`, numerals folded. -/
def mkPow : Expr → Expr → Expr
  | .num a, .num q => powFold a q
  | b, .num q => if q = 0 then .num 1 else if q = 1 then b else .pow b (.num q)
  | .num a, e => if a = 1 then .num 1 else .pow (.num a) e
  | b, e => .pow b e

/-- SymPy `sin` with its evaluation at zero (`sin(0) = 0`). -/
def mkSin : Expr → Expr
  | .num q => if q = 0 then .num 0 else .sin (.num q)
  | e => .sin e

/-- SymPy `cos` with its evaluation at zero (`cos(0) = 1`). -/
def mkCos : Expr → Expr
  | .num q => if q = 0 then .num 1 else .cos (.num q)
  | e => .cos e

/-- SymPy `log` with its evaluation at one (`log(1) = 0`). -/
def mkLog : Expr → Expr
  | .num q => if q = 1 then .num 0 else .log (.num q)
  | e => .log e

/-- SymPy subtraction: `a - b = Add(a, Mul(-1, b))`. -/
def mkSub (a b : Expr) : Expr := mkAdd a (mkMul (.num (-1)) b)

/-- SymPy division: `a / b = Mul(a, Pow(b, -1))`. -/
def mkDiv (a b : Expr) : Expr := mkMul a (mkPow b (.num (-1)))

/-- Whether the symbol `v` occurs free in `e`. -/
def occursVar (v : String) (e : Expr) : Bool := v ∈ freeSymbols e

/-- `sympy.diff` on our node kinds, producing the auto-evaluated shapes
SymPy produces (e.g. `diff(x**3, x) = 3*x**2`,
`diff(cos(x), x) = -sin(x)` as `Mul(-1, sin(x))`). -/
def diff : Expr → String → Expr
  | .num _, _ => .num 0
  | .var w, v => if w = v then .num 1 else .num 0
  | .add a b, v => mkAdd (diff a v) (diff b v)
  | .mul a b, v => mkAdd (mkMul (diff a v) b) (mkMul a (diff b v))
  | .pow a b, v =>
      if occursVar v b then
        mkMul (mkPow a b)
          (mkAdd (mkMul (diff b v) (mkLog a))
            (mkMul b (mkMul (diff a v) (mkPow a (.num (-1))))))
      else
        mkMul b (mkMul (mkPow a (mkAdd b (.num (-1)))) (diff a v))
  | .sin a, v => mkMul (mkCos a) (diff a v)
  | .cos a, v => mkMul (mkMul (.num (-1)) (mkSin a)) (diff a v)
  | .log a, v => mkMul (mkPow a (.num (-1))) (diff a v)

/-- `Expr.subs(var, value)` for a symbol: SymPy replaces each occurrence
and rebuilds a node (with auto-evaluation) only when one of its
arguments changed, returning the node itself otherwise. -/
def subs : Expr → String → Expr → Expr
  | .num q, _, _ => .num q
  | .var w, v, r => if w = v then r else .var w
  | .add a b, v, r =>
      let a' := subs a v r; let b' := subs b v r
      if a' = a ∧ b' = b then .add a b else mkAdd a' b'
  | .mul a b, v, r =>
      let a' := subs a v r; let b' := subs b v r
      if a' = a ∧ b' = b then .mul a b else mkMul a' b'
  | .pow a b, v, r =>
      let a' := subs a v r; let b' := subs b v r
      if a' = a ∧ b' = b then .pow a b else mkPow a' b'
  | .sin a, v, r =>
      let a' := subs a v r
      if a' = a then .sin a else mkSin a'
  | .cos a, v, r =>
      let a' := subs a v r
      if a' = a then .cos a else mkCos a'
  | .log a, v, r =>
      let a' := subs a v r
      if a' = a then .log a else mkLog a'

/-- `Expr.subs(old, new)` for a whole sub-expression `old`: a node equal
to `old` is replaced outright; otherwise arguments are substituted and
the node is rebuilt (with auto-evaluation) only if an argument changed. -/
def subsExpr : Expr → Expr → Expr → Expr
  | .num q, old, new => if Expr.num q = old then new else .num q
  | .var w, old, new => if Expr.var w = old then new else .var w
  | .add a b, old, new =>
      if Expr.add a b = old then new else
      let a' := subsExpr a old new; let b' := subsExpr b old new
      if a' = a ∧ b' = b then .add a b else mkAdd a' b'
  | .mul a b, old, new =>
      if Expr.mul a b = old then new else
      let a' := subsExpr a old new; let b' := subsExpr b old new
      if a' = a ∧ b' = b then .mul a b else mkMul a' b'
  | .pow a b, old, new =>
      if Expr.pow a b = old then new else
      let a' := subsExpr a old new; let b' := subsExpr b old new
      if a' = a ∧ b' = b then .pow a b else mkPow a' b'
  | .sin a, old, new =>
      if Expr.sin a = old then new else
      let a' := subsExpr a old new
      if a' = a then .sin a else mkSin a'
  | .cos a, old, new =>
      if Expr.cos a = old then new else
      let a' := subsExpr a old new
      if a' = a then .cos a else mkCos a'
  | .log a, old, new =>
      if Expr.log a = old then new else
      let a' := subsExpr a old new
      if a' = a then .log a else mkLog a'

/-- Printed form of a rational constant in SymPy's style
(`3`, `-2`, `1/6`). -/
def ratStr (q : ℚ) : String :=
  if q.den = 1 then toString q.num else toString q.num ++ "/" ++ toString q.den

/-- Printing precedence: `Add` binds loosest, then `Mul`, then `Pow`;
atoms and function applications never need parentheses. -/
def precOf : Expr → Nat
  | .add _ _ => 1
  | .mul _ _ => 2
  | .pow _ _ => 3
  | _ => 5

/-- `str(expr)`: the textual form used throughout the engine for
ordering by length.  Compositional with precedence-driven
parenthesisation, modelling SymPy's printer. -/
def pstr : Expr → String
  | .num q => ratStr q
  | .var s => s
  | .add a b => pstr a ++ " + " ++ pstr b
  | .mul a b =>
      (if precOf a ≤ 1 then "(" ++ pstr a ++ ")" else pstr a) ++ "*" ++
      (if precOf b ≤ 1 then "(" ++ pstr b ++ ")" else pstr b)
  | .pow a b =>
      (if precOf a ≤ 2 then "(" ++ pstr a ++ ")" else pstr a) ++ "**" ++
      (if precOf b ≤ 2 then "(" ++ pstr b ++ ")" else pstr b)
  | .sin a => "sin(" ++ pstr a ++ ")"
  | .cos a => "cos(" ++ pstr a ++ ")"
  | .log a => "log(" ++ pstr a ++ ")"

/-- Length of the printed form, the engine's complexity measure. -/
def strLen (e : Expr) : Nat := (pstr e).length

/-- One iteration of the loop in `compute_univariate_taylor`
(`src/app.py` lines 60-65): state is `(expansion, term, fact)`. -/
def tStep (v : String) (a : ℚ) (st : Expr × Expr × ℕ) (n : ℕ) : Expr × Expr × ℕ :=
  let term := if 0 < n then diff st.2.1 v else st.2.1
  let fact := if 0 < n then st.2.2 * n else st.2.2
  let termAtPoint := subs term v (.num a)
  (mkAdd st.1
      (mkDiv (mkMul termAtPoint (mkPow (mkSub (.var v) (.num a)) (.num (rqOfNat n))))
        (.num (rqOfNat fact))),
    term, fact)

/-- `TaylorCalculator.compute_univariate_taylor` (`src/app.py` 52-67):
`expansion = 0; term = f; fact = 1`, then `for n in range(order + 1)`
(empty when `order < 0`, as in Python). -/
def compute_univariate_taylor (f : Expr) (v : String) (a : ℚ) (order : ℤ) : Expr :=
  ((List.range (order + 1).toNat).foldl (tStep v a) (.num 0, f, 1)).1

/-- Stable ascending insertion by a numeric key: an element is placed
after all strictly smaller keys and before equal ones, so elements that
compare equal keep their input order (Python's `list.sort` is stable). -/
def insertAsc {α : Type} (key : α → ℕ) (x : α) : List α → List α
  | [] => [x]
  | y :: ys => if key y < key x then y :: insertAsc key x ys else x :: y :: ys

/-- Stable sort ascending by key, modelling Python `list.sort(key=...)`. -/
def sortAsc {α : Type} (key : α → ℕ) : List α → List α
  | [] => []
  | x :: xs => insertAsc key x (sortAsc key xs)

/-- Stable descending insertion by a numeric key, modelling
`sorted(..., key=..., reverse=True)` (stable: equal keys keep order). -/
def insertDesc {α : Type} (key : α → ℕ) (x : α) : List α → List α
  | [] => [x]
  | y :: ys => if key x < key y then y :: insertDesc key x ys else x :: y :: ys

/-- Stable sort descending by key. -/
def sortDesc {α : Type} (key : α → ℕ) : List α → List α
  | [] => []
  | x :: xs => insertDesc key x (sortDesc key xs)

/-- The collection test in `decompose_function`'s traversal loop
(`src/app.py` 40-42): a non-atom node whose free-symbol set is
non-empty. -/
def qualifies (e : Expr) : Bool := !e.isAtom && !(freeSymbols e).isEmpty

/-- Sort key used by `decompose_function` and `substitute_expansions`:
`len(str(x[0]))`. -/
def lenKey {β : Type} (p : Expr × β) : ℕ := strLen p.1

/-- The traversal loop of `decompose_function` (`src/app.py` 36-43):
one entry `(expr, free_symbols)` per qualifying node of
`preorder_traversal`, in traversal order, before the sort. -/
def rawComponents (f : Expr) : List (Expr × List String) :=
  ((preorder f).filter qualifies).map (fun e => (e, freeSymbols e))

/-- `TaylorCalculator.decompose_function` (`src/app.py` 29-47).  The
source receives the string form of the expression and re-parses it with
`sympify`; we model that print/parse round trip as the identity and take
the expression directly.  It walks `preorder_traversal`, collects every
non-atom node with free symbols paired with its free-symbol list, and
stable-sorts (`list.sort`) by `len(str(...))` ascending. -/
def decompose_function (f : Expr) : List (Expr × List String) :=
  sortAsc lenKey (rawComponents f)

/-- Python `dict` assignment `expansions[comp] = value` on an
insertion-ordered association list keyed by structural equality:
overwrites in place if the key is present, appends otherwise. -/
def upsert (m : List (Expr × Expr)) (k v : Expr) : List (Expr × Expr) :=
  if m.any (fun p => p.1 = k) then
    m.map (fun p => if p.1 = k then (k, v) else p)
  else m ++ [(k, v)]

/-- `TaylorCalculator.substitute_expansions` (`src/app.py` 69-80):
sorts the expansion items by `len(str(key))` descending (stable) and
applies `result.subs(expr, expansion)` sequentially. -/
def substitute_expansions (original : Expr) (expansions : List (Expr × Expr)) : Expr :=
  (sortDesc lenKey expansions).foldl (fun r p => subsExpr r p.1 p.2) original

/-- The inner loop of `calculate_series` step 2 (`src/app.py` 98-104):
expand a component sequentially in every `(var, point)` pair whose
variable is among the component's recorded free variables. -/
def expandComponent (pts : List (String × ℚ)) (order : ℤ) (comp : Expr)
    (compVars : List String) : Expr :=
  pts.foldl
    (fun acc p =>
      if p.1 ∈ compVars then compute_univariate_taylor acc p.1 p.2 order else acc)
    comp

/-- A trace entry appended to `steps` by `calculate_series`. -/
inductive Step where
  | decomposition (components : List String)
  | expansion (component : String) (result : String)
deriving DecidableEq, Repr

/-- The substitution mapping built by step 2 of `calculate_series`:
`expansions[comp] = comp_expansion` over the component list in order. -/
def expansionsMap (components : List (Expr × List String))
    (pts : List (String × ℚ)) (order : ℤ) : List (Expr × Expr) :=
  components.foldl (fun m c => upsert m c.1 (expandComponent pts order c.1 c.2)) []

/-- `TaylorCalculator.calculate_series` (`src/app.py` 82-114): decompose
(the source passes `str(f)` back through `sympify`, modelled as the
identity round trip), expand each component in every applicable
variable, substitute the expansions back, and return the (unsimplified)
result with the trace.  The `variables` argument is accepted and unused,
as in the source. -/
def calculate_series (f : Expr) (vars : List String)
    (expansion_points : List (String × ℚ)) (order : ℤ) : Expr × List Step :=
  let components := decompose_function f
  let step0 := Step.decomposition (components.map (fun c => pstr c.1))
  let folded := components.foldl
    (fun (acc : List (Expr × Expr) × List Step) c =>
      let ce := expandComponent expansion_points order c.1 c.2
      (upsert acc.1 c.1 ce, acc.2 ++ [Step.expansion (pstr c.1) (pstr ce)]))
    ([], [])
  let result := substitute_expansions f folded.1
  (result, step0 :: folded.2)

/-! ### A canonical simplifier modelling `sympy.simplify`

`calculate` (the route handler) calls `result.simplify()`.  We model the
adapter's canonical simplification as normalisation to a canonical
polynomial form over opaque non-arithmetic generators: products are
distributed over sums, like terms collected over ℚ, and monomials
ordered by a total structural order.  Non-polynomial nodes (functions,
symbolic powers) become generators with recursively normalised
arguments. -/

/-- Total comparison on rationals. -/
def qcmp (a b : ℚ) : Ordering :=
  if a = b then .eq else if rqLt a b then .lt else .gt

/-- Constructor tag, for the structural order on expressions. -/
def Expr.tag : Expr → ℕ
  | .num _ => 0
  | .var _ => 1
  | .add _ _ => 2
  | .mul _ _ => 3
  | .pow _ _ => 4
  | .sin _ => 5
  | .cos _ => 6
  | .log _ => 7

/-- Total structural comparison on expressions (tag, then fields). -/
def Expr.cmp : Expr → Expr → Ordering
  | .num a, .num b => qcmp a b
  | .var a, .var b => compare a b
  | .add a b, .add c d => (Expr.cmp a c).then (Expr.cmp b d)
  | .mul a b, .mul c d => (Expr.cmp a c).then (Expr.cmp b d)
  | .pow a b, .pow c d => (Expr.cmp a c).then (Expr.cmp b d)
  | .sin a, .sin b => Expr.cmp a b
  | .cos a, .cos b => Expr.cmp a b
  | .log a, .log b => Expr.cmp a b
  | x, y => compare x.tag y.tag

/-- Comparison of power products (sorted generator-exponent lists). -/
def ppCmp : List (Expr × ℕ) → List (Expr × ℕ) → Ordering
  | [], [] => .eq
  | [], _ :: _ => .lt
  | _ :: _, [] => .gt
  | (g, k) :: xs, (h, l) :: ys =>
      ((Expr.cmp g h).then (compare k l)).then (ppCmp xs ys)

/-- Insert one generator-exponent pair into a sorted power product,
merging exponents on an equal generator. -/
def ppIns (x : Expr × ℕ) : List (Expr × ℕ) → List (Expr × ℕ)
  | [] => [x]
  | y :: ys =>
      match Expr.cmp x.1 y.1 with
      | .lt => x :: y :: ys
      | .eq => (x.1, x.2 + y.2) :: ys
      | .gt => y :: ppIns x ys

/-- Product of two sorted power products. -/
def ppMul (xs ys : List (Expr × ℕ)) : List (Expr × ℕ) := xs.foldr ppIns ys

/-- Canonical polynomial: terms `(coefficient, power product)` with
non-zero coefficients, sorted by power product. -/
abbrev Poly : Type := List (ℚ × List (Expr × ℕ))

/-- Insert one term into a sorted polynomial, collecting an equal power
product and dropping a cancelled coefficient. -/
def polyIns (t : ℚ × List (Expr × ℕ)) : Poly → Poly
  | [] => if t.1 = 0 then [] else [t]
  | u :: us =>
      if t.1 = 0 then u :: us
      else
        match ppCmp t.2 u.2 with
        | .lt => t :: u :: us
        | .eq =>
            if rqAdd t.1 u.1 = 0 then us else (rqAdd t.1 u.1, t.2) :: us
        | .gt => u :: polyIns t us

/-- Sum of canonical polynomials. -/
def polyAdd (p q : Poly) : Poly := p.foldr polyIns q

/-- Product of canonical polynomials, built by summing term products. -/
def polyMul (p q : Poly) : Poly :=
  p.foldl
    (fun acc t =>
      q.foldl (fun acc2 u => polyAdd acc2 [(rqMul t.1 u.1, ppMul t.2 u.2)]) acc)
    []

/-- Natural power of a canonical polynomial. -/
def polyPow (p : Poly) : ℕ → Poly
  | 0 => [(1, [])]
  | n + 1 => polyMul p (polyPow p n)

/-- Expression for one generator raised to an exponent. -/
def genExpr (g : Expr) (k : ℕ) : Expr := if k = 1 then g else mkPow g (.num k)

/-- Expression for a power product. -/
def ppExpr : List (Expr × ℕ) → Expr
  | [] => .num 1
  | [x] => genExpr x.1 x.2
  | x :: xs => mkMul (genExpr x.1 x.2) (ppExpr xs)

/-- Expression for one polynomial term. -/
def termExpr (t : ℚ × List (Expr × ℕ)) : Expr :=
  if t.2 = [] then .num t.1
  else if t.1 = 1 then ppExpr t.2
  else mkMul (.num t.1) (ppExpr t.2)

/-- Expression for a canonical polynomial. -/
def polyToExpr : Poly → Expr
  | [] => .num 0
  | [t] => termExpr t
  | t :: ts => mkAdd (termExpr t) (polyToExpr ts)

/-- A polynomial consisting of a single (possibly numeric) generator. -/
def genOf (g : Expr) : Poly :=
  match g with
  | .num q => if q = 0 then [] else [(q, [])]
  | g => [(1, [(g, 1)])]

/-- Canonical polynomial of an expression: arithmetic is interpreted,
everything else becomes an opaque generator with normalised arguments. -/
def toPoly : Expr → Poly
  | .num q => if q = 0 then [] else [(q, [])]
  | .var s => [(1, [(.var s, 1)])]
  | .add a b => polyAdd (toPoly a) (toPoly b)
  | .mul a b => polyMul (toPoly a) (toPoly b)
  | .pow a b =>
      match b with
      | .num q =>
          if q.den = 1 ∧ 0 < q.num then polyPow (toPoly a) q.num.toNat
          else genOf (mkPow (polyToExpr (toPoly a)) (.num q))
      | _ => genOf (mkPow (polyToExpr (toPoly a)) (polyToExpr (toPoly b)))
  | .sin a => genOf (mkSin (polyToExpr (toPoly a)))
  | .cos a => genOf (mkCos (polyToExpr (toPoly a)))
  | .log a => genOf (mkLog (polyToExpr (toPoly a)))

/-- Modelled `sympy.simplify` (`result.simplify()` in the route
handler): canonical polynomial normalisation as described above. -/
def simplify (e : Expr) : Expr := polyToExpr (toPoly e)

/-- The `/calculate` route handler after its input-parsing prelude
(`src/app.py` 135-144): runs `calculate_series`, applies the final
`result.simplify()` itself, and serialises the result with `str`. -/
def calculate (f : Expr) (vars : List String) (pts : List (String × ℚ))
    (order : ℤ) : List Step × String :=
  let rs := calculate_series f vars pts order
  (rs.2, pstr (simplify rs.1))

/-! ### The input parser

`parse_inputs` converts raw strings with `sympify`, `sympy.symbols` and
Python's `float`.  Those primitives are external; we model the fragment
they are exercised on. -/

/-- A Python `float` as produced by `float(str)`: a finite value (we
carry exact rationals), an infinity, or a NaN. -/
inductive PyFloat where
  | finite (q : ℚ)
  | inf
  | ninf
  | nan
deriving DecidableEq, Repr

/-- Whether a Python float is a finite real number. -/
def PyFloat.isFinite : PyFloat → Bool
  | finite _ => true
  | _ => false

/-- Python `str.split(sep)` for a one-character separator: splitting an
empty string yields `[""]`, and separators at the ends yield empty
segments, exactly as in Python. -/
def splitChar (c : Char) : List Char → List (List Char)
  | [] => [[]]
  | x :: xs =>
      match splitChar c xs with
      | [] => [[x]]
      | h :: t => if x = c then [] :: h :: t else (x :: h) :: t

/-- `str.split` lifted to `String`. -/
def pySplit (s : String) (c : Char) : List String :=
  (splitChar c s.data).map (fun l => String.mk l)

/-- Python `str.strip()`: drop whitespace from both ends. -/
def pyStrip (s : String) : String :=
  String.mk (((s.data.dropWhile Char.isWhitespace).reverse.dropWhile
    Char.isWhitespace).reverse)

/-- ASCII lower-casing of one character. -/
def lowerChar (c : Char) : Char :=
  if 'A' ≤ c ∧ c ≤ 'Z' then Char.ofNat (c.toNat + 32) else c

/-- An optional leading sign: `true` means negative. -/
def splitSign : List Char → Bool × List Char
  | '-' :: r => (true, r)
  | '+' :: r => (false, r)
  | r => (false, r)

/-- Numeric value of a digit string. -/
def digitsVal (cs : List Char) : ℕ :=
  cs.foldl (fun a c => a * 10 + (c.toNat - Char.toNat '0')) 0

/-- The unsigned mantissa of a Python float literal: `digits`,
`digits.digits`, `.digits` or `digits.` with at least one digit. -/
def parseMantissa (cs : List Char) : Option ℚ :=
  match splitChar '.' cs with
  | [i] =>
      if i ≠ [] ∧ i.all Char.isDigit then some (rqOfNat (digitsVal i)) else none
  | [i, f] =>
      if (i ≠ [] ∨ f ≠ []) ∧ i.all Char.isDigit ∧ f.all Char.isDigit then
        some (rqAdd (rqOfNat (digitsVal i))
          (rqDiv (rqOfNat (digitsVal f)) (rqPow (rqOfNat 10) f.length)))
      else none
  | _ => none

/-- The exponent part of a float literal: optional sign, then digits. -/
def parseExpPart (cs : List Char) : Option ℤ :=
  let sr := splitSign cs
  if sr.2 ≠ [] ∧ sr.2.all Char.isDigit then
    some (if sr.1 then -(digitsVal sr.2 : ℤ) else (digitsVal sr.2 : ℤ))
  else none

/-- Scaling by a power of ten, for the exponent part. -/
def rqScale10 (v : ℚ) (k : ℤ) : ℚ :=
  if 0 ≤ k then rqMul v (rqPow (rqOfNat 10) k.toNat)
  else rqDiv v (rqPow (rqOfNat 10) (-k).toNat)

/-- An unsigned decimal float literal, with optional `e` exponent
(the input is already lower-cased). -/
def parseDecimal (cs : List Char) : Option ℚ :=
  match splitChar 'e' cs with
  | [m] => parseMantissa m
  | [m, ex] =>
      match parseMantissa m, parseExpPart ex with
      | some v, some k => some (rqScale10 v k)
      | _, _ => none
  | _ => none

/-- Modelled CPython `float(str)`: strips whitespace, takes an optional
sign, accepts `inf`, `infinity` and `nan` case-insensitively, and
otherwise parses a decimal literal; raises (returns `none`) on anything
else. -/
def pyFloatOfString (s : String) : Option PyFloat :=
  let t := (pyStrip s).data.map lowerChar
  let sr := splitSign t
  if sr.2 = "inf".data ∨ sr.2 = "infinity".data then
    some (if sr.1 then .ninf else .inf)
  else if sr.2 = "nan".data then some .nan
  else
    match parseDecimal sr.2 with
    | some q => some (.finite (if sr.1 then -q else q))
    | none => none

/-- Modelled `sympy.symbols` on a single plain identifier token: strips
whitespace and accepts a non-empty alphanumeric/underscore name that
does not start with a digit; anything else raises. -/
def symbolsModel (s : String) : Except String String :=
  let t := pyStrip s
  match t.data with
  | [] => .error "Input parsing error: no symbols given"
  | c :: cs =>
      if c.isDigit then .error "Input parsing error: invalid symbol name"
      else if (c :: cs).all (fun ch => ch.isAlphanum || ch = '_') then .ok t
      else .error "Input parsing error: invalid symbol name"

/-- Modelled `sympy.sympify` on the atomic inputs the parsing claims
exercise: a bare identifier parses to a symbol and a signed numeric
literal to a rational constant; other syntax is not modelled and is
rejected.  (The parsing claims under verification do not depend on
richer function syntax.) -/
def sympifyModel (s : String) : Except String Expr :=
  let t := pyStrip s
  match t.data with
  | [] => .error "Input parsing error: empty expression"
  | _ :: _ =>
      match symbolsModel t with
      | .ok n => .ok (.var n)
      | .error _ =>
          let sr := splitSign t.data
          match parseDecimal (sr.2.map lowerChar) with
          | some q => .ok (.num (if sr.1 then -q else q))
          | none => .error "Input parsing error: could not parse expression"

/-- `TaylorCalculator.parse_inputs` (`src/app.py` 9-26): `sympify` the
function text, split the variables text on `,` into symbols, split the
expansions text on `;`, split each segment on `=` into exactly a name
and a value, convert the value with `float`.  Any failure raises
`ValueError("Input parsing error: ...")`.  No cross-validation between
the three parts is performed. -/
def parse_inputs (function_expr : String) (vars_text : String)
    (expansions : String) :
    Except String (Expr × List String × List (String × PyFloat)) := do
  let f ← sympifyModel function_expr
  let vars_list ← (pySplit vars_text ',').mapM (fun v => symbolsModel v)
  let exp_points ← (pySplit expansions ';').mapM (fun exp =>
    match pySplit exp '=' with
    | [v, value] =>
        match symbolsModel v with
        | .ok name =>
            match pyFloatOfString value with
            | some x => Except.ok (name, x)
            | none =>
                Except.error "Input parsing error: could not convert string to float"
        | .error e => Except.error e
    | _ => Except.error "Input parsing error: not enough values to unpack")
  return (f, vars_list, exp_points)


/-! ### Specification-side definitions

These formalise the quantities the specification speaks about: the
`n`-th derivative, the `n`-th Taylor term, the truncated Taylor sum
(with the term shape `f_n(a) * (v - a)**n / n!` exactly as the
specification's algorithm states it), and full pointwise substitution. -/

/-- The `n`-fold derivative of `f` with respect to `v`. -/
def iterDiff (f : Expr) (v : String) : ℕ → Expr
  | 0 => f
  | n + 1 => diff (iterDiff f v n) v

/-- The `n`-th term of the truncated Taylor series:
`(dⁿf/dvⁿ at v = a) * (v - a)**n / n!`. -/
def taylorTerm (f : Expr) (v : String) (a : ℚ) (n : ℕ) : Expr :=
  mkDiv
    (mkMul (subs (iterDiff f v n) v (.num a))
      (mkPow (mkSub (.var v) (.num a)) (.num (rqOfNat n))))
    (.num (rqOfNat (Nat.factorial n)))

/-- The truncated Taylor sum `Σ_{n=0}^{m} taylorTerm n` (the empty sum
starts from the Python literal `0`, absorbed by SymPy's `Add`). -/
def taylorSum (f : Expr) (v : String) (a : ℚ) : ℕ → Expr
  | 0 => taylorTerm f v a 0
  | m + 1 => mkAdd (taylorSum f v a m) (taylorTerm f v a (m + 1))

/-- The original expression with every expansion point substituted, in
order: the specification's description of the zeroth-order result. -/
def substAll (f : Expr) (pts : List (String × ℚ)) : Expr :=
  pts.foldl (fun e p => subs e p.1 (.num p.2)) f

deriving instance DecidableEq for Except

/-! ## The rational operations agree with the arithmetic of ℚ -/

theorem rqAdd_eq (a b : ℚ) : rqAdd a b = a + b := (Rat.add_def' a b).symm

theorem rqMul_eq (a b : ℚ) : rqMul a b = a * b := by
  rw [rqMul, ← Rat.mkRat_self a, ← Rat.mkRat_self b, Rat.mkRat_mul_mkRat,
    Rat.mkRat_self a, Rat.mkRat_self b]

theorem rqOfNat_eq (n : ℕ) : rqOfNat n = (n : ℚ) := by
  rw [rqOfNat, Rat.mkRat_one]; rfl

theorem rqInv_eq (a : ℚ) : rqInv a = a⁻¹ := by
  rw [rqInv]
  by_cases h0 : a.num = 0
  · rw [if_pos h0]
    have ha : a = 0 := by rwa [Rat.num_eq_zero] at h0
    rw [ha, inv_zero]
  · rw [if_neg h0]
    have hinv : a⁻¹ = Rat.divInt (a.den : Int) a.num := Rat.inv_def a
    by_cases hneg : a.num < 0
    · rw [if_pos hneg, hinv]
      have hnum : a.num = -(a.num.natAbs : Int) := by omega
      have hstep : Rat.divInt ((a.den : Int)) a.num =
          Rat.divInt (-(a.den : Int)) (a.num.natAbs : Int) := by
        conv_lhs => rw [hnum]
        exact Rat.divInt_neg' _ _
      rw [hstep, Rat.divInt_ofNat]
    · rw [if_neg hneg, hinv]
      have hnum : a.num = (a.num.natAbs : Int) := by omega
      conv_rhs => rw [hnum]
      rw [Rat.divInt_ofNat]

theorem rqPow_eq (a : ℚ) : ∀ k : ℕ, rqPow a k = a ^ k := by
  intro k
  induction k with
  | zero => rfl
  | succ k ih => rw [rqPow, ih, rqMul_eq, pow_succ]

theorem rqDiv_eq (a b : ℚ) : rqDiv a b = a / b := by
  rw [rqDiv, rqMul_eq, rqInv_eq, div_eq_mul_inv]

/-! ## Lemmas about the auto-evaluating constructors -/

theorem mkAdd_zero_left (e : Expr) : mkAdd (.num 0) e = e := by
  cases e <;> simp [mkAdd, rqAdd_eq]

theorem mkMul_one_right (e : Expr) : mkMul e (.num 1) = e := by
  cases e <;> simp [mkMul, rqMul_eq]

theorem mkPow_exp_zero (e : Expr) : mkPow e (.num 0) = .num 1 := by
  cases e <;> simp [mkPow, powFold]

theorem mkDiv_one (e : Expr) : mkDiv e (.num 1) = e := by
  have h : mkPow (.num 1) (.num (-1)) = .num 1 := by decide
  rw [mkDiv, h, mkMul_one_right]

theorem mem_fs_mkAdd {x : String} {a b : Expr}
    (h : x ∈ freeSymbols (mkAdd a b)) :
    x ∈ freeSymbols a ∨ x ∈ freeSymbols b := by
  unfold mkAdd at h
  split at h <;>
    first
      | (simp only [freeSymbols, List.mem_dedup, List.mem_append] at h; exact h)
      | (simp [freeSymbols] at h)
      | (split_ifs at h <;> simp_all [freeSymbols, List.mem_dedup])

theorem mem_fs_mkMul {x : String} {a b : Expr}
    (h : x ∈ freeSymbols (mkMul a b)) :
    x ∈ freeSymbols a ∨ x ∈ freeSymbols b := by
  unfold mkMul at h
  split at h <;>
    first
      | (simp only [freeSymbols, List.mem_dedup, List.mem_append] at h; exact h)
      | (simp [freeSymbols] at h)
      | (split_ifs at h <;> simp_all [freeSymbols, List.mem_dedup])

theorem mem_fs_powFold {x : String} {a q : ℚ}
    (h : x ∈ freeSymbols (powFold a q)) : False := by
  unfold powFold at h
  split_ifs at h <;> simp_all [freeSymbols]

theorem mem_fs_mkPow {x : String} {a b : Expr}
    (h : x ∈ freeSymbols (mkPow a b)) :
    x ∈ freeSymbols a ∨ x ∈ freeSymbols b := by
  unfold mkPow at h
  split at h
  · exact absurd h mem_fs_powFold
  · split_ifs at h <;> simp_all [freeSymbols, List.mem_dedup]
  · split_ifs at h <;> simp_all [freeSymbols, List.mem_dedup]
  · simp_all [freeSymbols, List.mem_dedup]

theorem mem_fs_mkSin {x : String} {a : Expr}
    (h : x ∈ freeSymbols (mkSin a)) : x ∈ freeSymbols a := by
  unfold mkSin at h
  split at h <;> first
    | (split_ifs at h <;> simp_all [freeSymbols])
    | exact h

theorem mem_fs_mkCos {x : String} {a : Expr}
    (h : x ∈ freeSymbols (mkCos a)) : x ∈ freeSymbols a := by
  unfold mkCos at h
  split at h <;> first
    | (split_ifs at h <;> simp_all [freeSymbols])
    | exact h

theorem mem_fs_mkLog {x : String} {a : Expr}
    (h : x ∈ freeSymbols (mkLog a)) : x ∈ freeSymbols a := by
  unfold mkLog at h
  split at h <;> first
    | (split_ifs at h <;> simp_all [freeSymbols])
    | exact h

/-! ## Lemmas about substitution and free symbols -/

theorem fs_subs {x : String} (v : String) (r : Expr) :
    ∀ e : Expr, x ∈ freeSymbols (subs e v r) →
      x ∈ freeSymbols e ∨ x ∈ freeSymbols r := by
  intro e
  induction e with
  | num q => intro h; simp [subs, freeSymbols] at h
  | var w =>
      intro h
      by_cases hw : w = v
      · simp only [subs, if_pos hw] at h; exact Or.inr h
      · simp only [subs, if_neg hw] at h; exact Or.inl h
  | add a b iha ihb =>
      intro h
      simp only [subs] at h
      split at h
      · exact Or.inl h
      · have h2 := mem_fs_mkAdd h
        simp only [freeSymbols, List.mem_dedup, List.mem_append]
        tauto
  | mul a b iha ihb =>
      intro h
      simp only [subs] at h
      split at h
      · exact Or.inl h
      · have h2 := mem_fs_mkMul h
        simp only [freeSymbols, List.mem_dedup, List.mem_append]
        tauto
  | pow a b iha ihb =>
      intro h
      simp only [subs] at h
      split at h
      · exact Or.inl h
      · have h2 := mem_fs_mkPow h
        simp only [freeSymbols, List.mem_dedup, List.mem_append]
        tauto
  | sin a iha =>
      intro h
      simp only [subs] at h
      split at h
      · exact Or.inl h
      · have h2 := mem_fs_mkSin h
        simp only [freeSymbols]
        tauto
  | cos a iha =>
      intro h
      simp only [subs] at h
      split at h
      · exact Or.inl h
      · have h2 := mem_fs_mkCos h
        simp only [freeSymbols]
        tauto
  | log a iha =>
      intro h
      simp only [subs] at h
      split at h
      · exact Or.inl h
      · have h2 := mem_fs_mkLog h
        simp only [freeSymbols]
        tauto

theorem subs_not_free (v : String) (r : Expr) :
    ∀ e : Expr, v ∉ freeSymbols e → subs e v r = e := by
  intro e
  induction e with
  | num q => intro _; simp [subs]
  | var w =>
      intro h
      have hw : w ≠ v := by
        intro hh; exact h (by simp [freeSymbols, hh])
      simp [subs, hw]
  | add a b iha ihb =>
      intro h
      have ha : v ∉ freeSymbols a := fun hh =>
        h (by simp [freeSymbols, List.mem_dedup, List.mem_append]; exact Or.inl hh)
      have hb : v ∉ freeSymbols b := fun hh =>
        h (by simp [freeSymbols, List.mem_dedup, List.mem_append]; exact Or.inr hh)
      simp [subs, iha ha, ihb hb]
  | mul a b iha ihb =>
      intro h
      have ha : v ∉ freeSymbols a := fun hh =>
        h (by simp [freeSymbols, List.mem_dedup, List.mem_append]; exact Or.inl hh)
      have hb : v ∉ freeSymbols b := fun hh =>
        h (by simp [freeSymbols, List.mem_dedup, List.mem_append]; exact Or.inr hh)
      simp [subs, iha ha, ihb hb]
  | pow a b iha ihb =>
      intro h
      have ha : v ∉ freeSymbols a := fun hh =>
        h (by simp [freeSymbols, List.mem_dedup, List.mem_append]; exact Or.inl hh)
      have hb : v ∉ freeSymbols b := fun hh =>
        h (by simp [freeSymbols, List.mem_dedup, List.mem_append]; exact Or.inr hh)
      simp [subs, iha ha, ihb hb]
  | sin a iha =>
      intro h
      have ha : v ∉ freeSymbols a := fun hh => h (by simpa [freeSymbols] using hh)
      simp [subs, iha ha]
  | cos a iha =>
      intro h
      have ha : v ∉ freeSymbols a := fun hh => h (by simpa [freeSymbols] using hh)
      simp [subs, iha ha]
  | log a iha =>
      intro h
      have ha : v ∉ freeSymbols a := fun hh => h (by simpa [freeSymbols] using hh)
      simp [subs, iha ha]

theorem subs_kills (v : String) (r : Expr) (hr : v ∉ freeSymbols r) :
    ∀ e : Expr, v ∉ freeSymbols (subs e v r) := by
  intro e
  induction e with
  | num q => simp [subs, freeSymbols]
  | var w =>
      by_cases hw : w = v
      · simp only [subs, if_pos hw]; exact hr
      · simp only [subs, if_neg hw]
        simp [freeSymbols]
        exact fun hh => hw hh.symm
  | add a b iha ihb =>
      intro h
      simp only [subs] at h
      split at h
      · rename_i hc
        simp only [freeSymbols, List.mem_dedup, List.mem_append] at h
        rcases h with h | h
        · exact iha (hc.1.symm ▸ h)
        · exact ihb (hc.2.symm ▸ h)
      · rcases mem_fs_mkAdd h with h | h
        · exact iha h
        · exact ihb h
  | mul a b iha ihb =>
      intro h
      simp only [subs] at h
      split at h
      · rename_i hc
        simp only [freeSymbols, List.mem_dedup, List.mem_append] at h
        rcases h with h | h
        · exact iha (hc.1.symm ▸ h)
        · exact ihb (hc.2.symm ▸ h)
      · rcases mem_fs_mkMul h with h | h
        · exact iha h
        · exact ihb h
  | pow a b iha ihb =>
      intro h
      simp only [subs] at h
      split at h
      · rename_i hc
        simp only [freeSymbols, List.mem_dedup, List.mem_append] at h
        rcases h with h | h
        · exact iha (hc.1.symm ▸ h)
        · exact ihb (hc.2.symm ▸ h)
      · rcases mem_fs_mkPow h with h | h
        · exact iha h
        · exact ihb h
  | sin a iha =>
      intro h
      simp only [subs] at h
      split at h
      · rename_i hc
        simp only [freeSymbols] at h
        exact iha (hc.symm ▸ h)
      · exact iha (mem_fs_mkSin h)
  | cos a iha =>
      intro h
      simp only [subs] at h
      split at h
      · rename_i hc
        simp only [freeSymbols] at h
        exact iha (hc.symm ▸ h)
      · exact iha (mem_fs_mkCos h)
  | log a iha =>
      intro h
      simp only [subs] at h
      split at h
      · rename_i hc
        simp only [freeSymbols] at h
        exact iha (hc.symm ▸ h)
      · exact iha (mem_fs_mkLog h)

/-! ## Lemmas about traversal and printed length -/

theorem mem_preorder_self (e : Expr) : e ∈ preorder e := by
  cases e <;> simp [preorder]

theorem mem_preorder_iff (e s : Expr) :
    s ∈ preorder e ↔ s = e ∨ ∃ a ∈ args e, s ∈ preorder a := by
  cases e <;> simp [preorder, args]

theorem preorder_arg_subset {e a : Expr} (ha : a ∈ args e) :
    ∀ s ∈ preorder a, s ∈ preorder e := by
  intro s hs
  exact (mem_preorder_iff e s).mpr (Or.inr ⟨a, ha, hs⟩)

theorem fs_of_subtree : ∀ (e s : Expr), s ∈ preorder e →
    ∀ x, x ∈ freeSymbols s → x ∈ freeSymbols e := by
  intro e
  induction e with
  | num q => intro s hs x hx; simp [preorder] at hs; subst hs; exact hx
  | var w => intro s hs x hx; simp [preorder] at hs; subst hs; exact hx
  | add a b iha ihb =>
      intro s hs x hx
      simp only [preorder, List.mem_cons, List.mem_append] at hs
      simp only [freeSymbols, List.mem_dedup, List.mem_append]
      rcases hs with rfl | hs | hs
      · simp only [freeSymbols, List.mem_dedup, List.mem_append] at hx; exact hx
      · exact Or.inl (iha s hs x hx)
      · exact Or.inr (ihb s hs x hx)
  | mul a b iha ihb =>
      intro s hs x hx
      simp only [preorder, List.mem_cons, List.mem_append] at hs
      simp only [freeSymbols, List.mem_dedup, List.mem_append]
      rcases hs with rfl | hs | hs
      · simp only [freeSymbols, List.mem_dedup, List.mem_append] at hx; exact hx
      · exact Or.inl (iha s hs x hx)
      · exact Or.inr (ihb s hs x hx)
  | pow a b iha ihb =>
      intro s hs x hx
      simp only [preorder, List.mem_cons, List.mem_append] at hs
      simp only [freeSymbols, List.mem_dedup, List.mem_append]
      rcases hs with rfl | hs | hs
      · simp only [freeSymbols, List.mem_dedup, List.mem_append] at hx; exact hx
      · exact Or.inl (iha s hs x hx)
      · exact Or.inr (ihb s hs x hx)
  | sin a iha =>
      intro s hs x hx
      simp only [preorder, List.mem_cons] at hs
      simp only [freeSymbols]
      rcases hs with rfl | hs
      · simp only [freeSymbols] at hx; exact hx
      · exact iha s hs x hx
  | cos a iha =>
      intro s hs x hx
      simp only [preorder, List.mem_cons] at hs
      simp only [freeSymbols]
      rcases hs with rfl | hs
      · simp only [freeSymbols] at hx; exact hx
      · exact iha s hs x hx
  | log a iha =>
      intro s hs x hx
      simp only [preorder, List.mem_cons] at hs
      simp only [freeSymbols]
      rcases hs with rfl | hs
      · simp only [freeSymbols] at hx; exact hx
      · exact iha s hs x hx

theorem paren_len (s : String) :
    ("(" ++ s ++ ")").length = s.length + 2 := by
  have h1 : String.length "(" = 1 := rfl
  have h2 : String.length ")" = 1 := rfl
  simp only [String.length_append, h1, h2]
  omega

theorem wrap_len_ge (c : Prop) [Decidable c] (s : String) :
    s.length ≤ (if c then "(" ++ s ++ ")" else s).length := by
  split
  · rw [paren_len]; omega
  · exact Nat.le_refl _

theorem strLen_args_lt : ∀ (e a : Expr), a ∈ args e → strLen a < strLen e := by
  intro e a ha
  cases e <;>
    simp only [args, List.mem_cons, List.not_mem_nil, or_false] at ha
  case add x y =>
    have h3 : String.length " + " = 3 := rfl
    rcases ha with rfl | rfl <;>
      (simp only [strLen, pstr, String.length_append, h3]; omega)
  case mul x y =>
    have h1 := wrap_len_ge (precOf x ≤ 1) (pstr x)
    have h2 := wrap_len_ge (precOf y ≤ 1) (pstr y)
    have h3 : String.length "*" = 1 := rfl
    rcases ha with rfl | rfl <;>
      (simp only [strLen, pstr, String.length_append, h3]; omega)
  case pow x y =>
    have h1 := wrap_len_ge (precOf x ≤ 2) (pstr x)
    have h2 := wrap_len_ge (precOf y ≤ 2) (pstr y)
    have h3 : String.length "**" = 2 := rfl
    rcases ha with rfl | rfl <;>
      (simp only [strLen, pstr, String.length_append, h3]; omega)
  case sin x =>
    have h4 : String.length "sin(" = 4 := rfl
    have h5 : String.length ")" = 1 := rfl
    subst ha
    simp only [strLen, pstr, String.length_append, h4, h5]
    omega
  case cos x =>
    have h4 : String.length "cos(" = 4 := rfl
    have h5 : String.length ")" = 1 := rfl
    subst ha
    simp only [strLen, pstr, String.length_append, h4, h5]
    omega
  case log x =>
    have h4 : String.length "log(" = 4 := rfl
    have h5 : String.length ")" = 1 := rfl
    subst ha
    simp only [strLen, pstr, String.length_append, h4, h5]
    omega

theorem strLen_preorder : ∀ (e s : Expr), s ∈ preorder e →
    s = e ∨ strLen s < strLen e := by
  intro e
  induction e with
  | num q => intro s hs; simp [preorder] at hs; exact Or.inl hs
  | var w => intro s hs; simp [preorder] at hs; exact Or.inl hs
  | add a b iha ihb =>
      intro s hs
      simp only [preorder, List.mem_cons, List.mem_append] at hs
      rcases hs with rfl | hs | hs
      · exact Or.inl rfl
      · refine Or.inr (Nat.lt_of_le_of_lt ?_ (strLen_args_lt (.add a b) a (by simp [args])))
        rcases iha s hs with rfl | hlt
        · exact Nat.le_refl _
        · exact Nat.le_of_lt hlt
      · refine Or.inr (Nat.lt_of_le_of_lt ?_ (strLen_args_lt (.add a b) b (by simp [args])))
        rcases ihb s hs with rfl | hlt
        · exact Nat.le_refl _
        · exact Nat.le_of_lt hlt
  | mul a b iha ihb =>
      intro s hs
      simp only [preorder, List.mem_cons, List.mem_append] at hs
      rcases hs with rfl | hs | hs
      · exact Or.inl rfl
      · refine Or.inr (Nat.lt_of_le_of_lt ?_ (strLen_args_lt (.mul a b) a (by simp [args])))
        rcases iha s hs with rfl | hlt
        · exact Nat.le_refl _
        · exact Nat.le_of_lt hlt
      · refine Or.inr (Nat.lt_of_le_of_lt ?_ (strLen_args_lt (.mul a b) b (by simp [args])))
        rcases ihb s hs with rfl | hlt
        · exact Nat.le_refl _
        · exact Nat.le_of_lt hlt
  | pow a b iha ihb =>
      intro s hs
      simp only [preorder, List.mem_cons, List.mem_append] at hs
      rcases hs with rfl | hs | hs
      · exact Or.inl rfl
      · refine Or.inr (Nat.lt_of_le_of_lt ?_ (strLen_args_lt (.pow a b) a (by simp [args])))
        rcases iha s hs with rfl | hlt
        · exact Nat.le_refl _
        · exact Nat.le_of_lt hlt
      · refine Or.inr (Nat.lt_of_le_of_lt ?_ (strLen_args_lt (.pow a b) b (by simp [args])))
        rcases ihb s hs with rfl | hlt
        · exact Nat.le_refl _
        · exact Nat.le_of_lt hlt
  | sin a iha =>
      intro s hs
      simp only [preorder, List.mem_cons] at hs
      rcases hs with rfl | hs
      · exact Or.inl rfl
      · refine Or.inr (Nat.lt_of_le_of_lt ?_ (strLen_args_lt (.sin a) a (by simp [args])))
        rcases iha s hs with rfl | hlt
        · exact Nat.le_refl _
        · exact Nat.le_of_lt hlt
  | cos a iha =>
      intro s hs
      simp only [preorder, List.mem_cons] at hs
      rcases hs with rfl | hs
      · exact Or.inl rfl
      · refine Or.inr (Nat.lt_of_le_of_lt ?_ (strLen_args_lt (.cos a) a (by simp [args])))
        rcases iha s hs with rfl | hlt
        · exact Nat.le_refl _
        · exact Nat.le_of_lt hlt
  | log a iha =>
      intro s hs
      simp only [preorder, List.mem_cons] at hs
      rcases hs with rfl | hs
      · exact Or.inl rfl
      · refine Or.inr (Nat.lt_of_le_of_lt ?_ (strLen_args_lt (.log a) a (by simp [args])))
        rcases iha s hs with rfl | hlt
        · exact Nat.le_refl _
        · exact Nat.le_of_lt hlt

/-! ## Lemmas about expression substitution -/

theorem subsExpr_root (e n : Expr) : subsExpr e e n = n := by
  cases e <;> simp [subsExpr]

theorem subsExpr_self : ∀ e k : Expr, subsExpr e k k = e := by
  intro e
  induction e with
  | num q =>
      intro k
      simp only [subsExpr]
      split
      · rename_i hc; exact hc.symm
      · rfl
  | var w =>
      intro k
      simp only [subsExpr]
      split
      · rename_i hc; exact hc.symm
      · rfl
  | add a b iha ihb =>
      intro k
      simp only [subsExpr]
      split
      · rename_i hc; exact hc.symm
      · simp [iha, ihb]
  | mul a b iha ihb =>
      intro k
      simp only [subsExpr]
      split
      · rename_i hc; exact hc.symm
      · simp [iha, ihb]
  | pow a b iha ihb =>
      intro k
      simp only [subsExpr]
      split
      · rename_i hc; exact hc.symm
      · simp [iha, ihb]
  | sin a iha =>
      intro k
      simp only [subsExpr]
      split
      · rename_i hc; exact hc.symm
      · simp [iha]
  | cos a iha =>
      intro k
      simp only [subsExpr]
      split
      · rename_i hc; exact hc.symm
      · simp [iha]
  | log a iha =>
      intro k
      simp only [subsExpr]
      split
      · rename_i hc; exact hc.symm
      · simp [iha]

theorem subsExpr_not_occurs : ∀ (e k n : Expr),
    (∀ s ∈ preorder e, s ≠ k) → subsExpr e k n = e := by
  intro e
  induction e with
  | num q =>
      intro k n h
      simp only [subsExpr]
      rw [if_neg (h _ (mem_preorder_self _))]
  | var w =>
      intro k n h
      simp only [subsExpr]
      rw [if_neg (h _ (mem_preorder_self _))]
  | add a b iha ihb =>
      intro k n h
      have ha := iha k n fun s hs => h s (preorder_arg_subset (by simp [args]) s hs)
      have hb := ihb k n fun s hs => h s (preorder_arg_subset (by simp [args]) s hs)
      simp only [subsExpr]
      rw [if_neg (h _ (mem_preorder_self _))]
      simp [ha, hb]
  | mul a b iha ihb =>
      intro k n h
      have ha := iha k n fun s hs => h s (preorder_arg_subset (by simp [args]) s hs)
      have hb := ihb k n fun s hs => h s (preorder_arg_subset (by simp [args]) s hs)
      simp only [subsExpr]
      rw [if_neg (h _ (mem_preorder_self _))]
      simp [ha, hb]
  | pow a b iha ihb =>
      intro k n h
      have ha := iha k n fun s hs => h s (preorder_arg_subset (by simp [args]) s hs)
      have hb := ihb k n fun s hs => h s (preorder_arg_subset (by simp [args]) s hs)
      simp only [subsExpr]
      rw [if_neg (h _ (mem_preorder_self _))]
      simp [ha, hb]
  | sin a iha =>
      intro k n h
      have ha := iha k n fun s hs => h s (preorder_arg_subset (by simp [args]) s hs)
      simp only [subsExpr]
      rw [if_neg (h _ (mem_preorder_self _))]
      simp [ha]
  | cos a iha =>
      intro k n h
      have ha := iha k n fun s hs => h s (preorder_arg_subset (by simp [args]) s hs)
      simp only [subsExpr]
      rw [if_neg (h _ (mem_preorder_self _))]
      simp [ha]
  | log a iha =>
      intro k n h
      have ha := iha k n fun s hs => h s (preorder_arg_subset (by simp [args]) s hs)
      simp only [subsExpr]
      rw [if_neg (h _ (mem_preorder_self _))]
      simp [ha]

/-! ## Lemmas about the stable sorts -/

section SortLemmas

variable {A : Type} (key : A → ℕ)

theorem insertAsc_perm (x : A) :
    ∀ l : List A, (insertAsc key x l).Perm (x :: l) := by
  intro l
  induction l with
  | nil => simp [insertAsc]
  | cons y ys ih =>
      simp only [insertAsc]
      split
      · exact ((ih.cons y).trans (List.Perm.swap x y ys))
      · exact List.Perm.refl _

theorem sortAsc_perm : ∀ l : List A, (sortAsc key l).Perm l := by
  intro l
  induction l with
  | nil => simp [sortAsc]
  | cons x xs ih =>
      exact (insertAsc_perm key x (sortAsc key xs)).trans (ih.cons x)

theorem insertAsc_sorted (x : A) :
    ∀ l : List A, l.Pairwise (fun a b => key a ≤ key b) →
      (insertAsc key x l).Pairwise (fun a b => key a ≤ key b) := by
  intro l
  induction l with
  | nil => intro _; simp [insertAsc]
  | cons y ys ih =>
      intro h
      rw [List.pairwise_cons] at h
      simp only [insertAsc]
      split
      · rename_i hlt
        rw [List.pairwise_cons]
        refine ⟨?_, ih h.2⟩
        intro z hz
        rw [(insertAsc_perm key x ys).mem_iff] at hz
        rcases List.mem_cons.mp hz with rfl | hz
        · exact Nat.le_of_lt hlt
        · exact h.1 z hz
      · rename_i hge
        rw [List.pairwise_cons]
        refine ⟨?_, List.pairwise_cons.mpr h⟩
        intro z hz
        rcases List.mem_cons.mp hz with rfl | hz
        · exact Nat.le_of_not_lt hge
        · exact Nat.le_trans (Nat.le_of_not_lt hge) (h.1 z hz)

theorem sortAsc_sorted :
    ∀ l : List A, (sortAsc key l).Pairwise (fun a b => key a ≤ key b) := by
  intro l
  induction l with
  | nil => simp [sortAsc]
  | cons x xs ih => exact insertAsc_sorted key x _ ih

theorem insertAsc_filter (x : A) (k : ℕ) :
    ∀ l : List A, l.Pairwise (fun a b => key a ≤ key b) →
      (insertAsc key x l).filter (fun z => key z == k) =
        if key x = k then x :: l.filter (fun z => key z == k)
        else l.filter (fun z => key z == k) := by
  intro l
  induction l with
  | nil =>
      intro _
      by_cases hx : key x = k <;> simp [insertAsc, hx]
  | cons y ys ih =>
      intro h
      rw [List.pairwise_cons] at h
      simp only [insertAsc]
      split
      · rename_i hlt
        rw [List.filter_cons, ih h.2]
        by_cases hx : key x = k
        · by_cases hy : key y = k
          · exact absurd hlt (by omega)
          · simp [hx, hy, List.filter_cons]
        · simp [hx, List.filter_cons]
      · rw [List.filter_cons]
        by_cases hx : key x = k <;> simp [hx, List.filter_cons]

theorem sortAsc_filter (k : ℕ) :
    ∀ l : List A, (sortAsc key l).filter (fun z => key z == k) =
      l.filter (fun z => key z == k) := by
  intro l
  induction l with
  | nil => simp [sortAsc]
  | cons x xs ih =>
      show (insertAsc key x (sortAsc key xs)).filter _ = _
      rw [insertAsc_filter key x k _ (sortAsc_sorted key _), List.filter_cons]
      by_cases hx : key x = k
      · simp [hx, ih]
      · simp [hx, ih]

theorem insertDesc_perm (x : A) :
    ∀ l : List A, (insertDesc key x l).Perm (x :: l) := by
  intro l
  induction l with
  | nil => simp [insertDesc]
  | cons y ys ih =>
      simp only [insertDesc]
      split
      · exact ((ih.cons y).trans (List.Perm.swap x y ys))
      · exact List.Perm.refl _

theorem sortDesc_perm : ∀ l : List A, (sortDesc key l).Perm l := by
  intro l
  induction l with
  | nil => simp [sortDesc]
  | cons x xs ih =>
      exact (insertDesc_perm key x (sortDesc key xs)).trans (ih.cons x)

theorem insertDesc_sorted (x : A) :
    ∀ l : List A, l.Pairwise (fun a b => key b ≤ key a) →
      (insertDesc key x l).Pairwise (fun a b => key b ≤ key a) := by
  intro l
  induction l with
  | nil => intro _; simp [insertDesc]
  | cons y ys ih =>
      intro h
      rw [List.pairwise_cons] at h
      simp only [insertDesc]
      split
      · rename_i hlt
        rw [List.pairwise_cons]
        refine ⟨?_, ih h.2⟩
        intro z hz
        rw [(insertDesc_perm key x ys).mem_iff] at hz
        rcases List.mem_cons.mp hz with rfl | hz
        · exact Nat.le_of_lt hlt
        · exact h.1 z hz
      · rename_i hge
        rw [List.pairwise_cons]
        refine ⟨?_, List.pairwise_cons.mpr h⟩
        intro z hz
        rcases List.mem_cons.mp hz with rfl | hz
        · exact Nat.le_of_not_lt hge
        · exact Nat.le_trans (h.1 z hz) (Nat.le_of_not_lt hge)

theorem sortDesc_sorted :
    ∀ l : List A, (sortDesc key l).Pairwise (fun a b => key b ≤ key a) := by
  intro l
  induction l with
  | nil => simp [sortDesc]
  | cons x xs ih => exact insertDesc_sorted key x _ ih

end SortLemmas

/-! ## The Taylor loop invariant -/

theorem taylor_fold (f : Expr) (v : String) (a : ℚ) :
    ∀ m : ℕ, (List.range (m + 1)).foldl (tStep v a) (.num 0, f, 1) =
      (taylorSum f v a m, iterDiff f v m, Nat.factorial m) := by
  intro m
  induction m with
  | zero =>
      have hr : List.range (0 + 1) = [0] := rfl
      rw [hr]
      simp only [List.foldl, tStep]
      norm_num
      rw [mkAdd_zero_left]
      exact ⟨rfl, rfl⟩
  | succ m ih =>
      rw [List.range_succ, List.foldl_append, ih]
      simp only [List.foldl, tStep]
      have h1 : 0 < m + 1 := Nat.succ_pos m
      rw [if_pos h1, if_pos h1]
      have hfact : Nat.factorial m * (m + 1) = Nat.factorial (m + 1) := by
        rw [Nat.factorial_succ, Nat.mul_comm]
      show (mkAdd (taylorSum f v a m) _, _, _) = _
      rw [hfact]
      rfl

theorem taylor_toNat (f : Expr) (v : String) (a : ℚ) (m : ℤ) (hm : 0 ≤ m) :
    compute_univariate_taylor f v a m = taylorSum f v a m.toNat := by
  have hn : (m + 1).toNat = m.toNat + 1 := by omega
  rw [compute_univariate_taylor, hn, taylor_fold]

theorem taylor_order0 (f : Expr) (v : String) (a : ℚ) :
    compute_univariate_taylor f v a 0 = subs f v (.num a) := by
  rw [taylor_toNat f v a 0 (by norm_num)]
  show taylorSum f v a 0 = _
  have h0 : rqOfNat 0 = 0 := by decide
  have h1 : rqOfNat 1 = 1 := by decide
  rw [taylorSum, taylorTerm, h0]
  show mkDiv (mkMul (subs f v (.num a)) (mkPow (mkSub (.var v) (.num a)) (.num 0)))
      (.num (rqOfNat (Nat.factorial 0))) = _
  rw [mkPow_exp_zero, mkMul_one_right]
  show mkDiv _ (.num (rqOfNat 1)) = _
  rw [h1, mkDiv_one]

/-! ## Order-zero expansion and substitution lemmas -/

theorem expandComponent_no_vars (pts : List (String × ℚ)) (order : ℤ)
    (c : Expr) (cv : List String) :
    (∀ p ∈ pts, p.1 ∉ cv) → expandComponent pts order c cv = c := by
  induction pts with
  | nil => intro _; rfl
  | cons p rest ih =>
      intro h
      show List.foldl _ (if p.1 ∈ cv then _ else c) rest = c
      rw [if_neg (h p (List.mem_cons_self p rest))]
      exact ih fun q hq => h q (List.mem_cons_of_mem p hq)

theorem expandComponent_order0 (pts : List (String × ℚ)) (c : Expr) :
    expandComponent pts 0 c (freeSymbols c) = substAll c pts := by
  suffices h : ∀ (pts : List (String × ℚ)) (e : Expr),
      (∀ x ∈ freeSymbols e, x ∈ freeSymbols c) →
      pts.foldl
        (fun acc p =>
          if p.1 ∈ freeSymbols c then compute_univariate_taylor acc p.1 p.2 0
          else acc) e = substAll e pts from
    h pts c fun _ hx => hx
  intro pts
  induction pts with
  | nil => intro e _; rfl
  | cons p rest ih =>
      intro e he
      show rest.foldl _
          (if p.1 ∈ freeSymbols c then compute_univariate_taylor e p.1 p.2 0 else e) =
        substAll (subs e p.1 (.num p.2)) rest
      by_cases hp : p.1 ∈ freeSymbols c
      · rw [if_pos hp, taylor_order0]
        refine ih (subs e p.1 (.num p.2)) fun x hx => ?_
        rcases fs_subs p.1 (.num p.2) e hx with h2 | h2
        · exact he x h2
        · simp [freeSymbols] at h2
      · rw [if_neg hp]
        have hnf : p.1 ∉ freeSymbols e := fun hh => hp (he _ hh)
        rw [subs_not_free _ _ _ hnf]
        exact ih e he

theorem fs_substAll (pts : List (String × ℚ)) :
    ∀ (e : Expr) (x : String),
      x ∈ freeSymbols (substAll e pts) → x ∈ freeSymbols e := by
  induction pts with
  | nil => intro e x h; exact h
  | cons p rest ih =>
      intro e x h
      have h2 := ih (subs e p.1 (.num p.2)) x h
      rcases fs_subs p.1 (.num p.2) e h2 with h3 | h3
      · exact h3
      · simp [freeSymbols] at h3

theorem substAll_kills (pts : List (String × ℚ)) :
    ∀ (e : Expr) (p : String × ℚ), p ∈ pts →
      p.1 ∉ freeSymbols (substAll e pts) := by
  induction pts with
  | nil => intro e p h; simp at h
  | cons q rest ih =>
      intro e p hp hmem
      rcases List.mem_cons.mp hp with rfl | hp
      · exact subs_kills p.1 _ (by simp [freeSymbols]) e
          (fs_substAll rest _ _ hmem)
      · exact ih (subs e q.1 (.num q.2)) p hp hmem

theorem substAll_closed (pts : List (String × ℚ)) (e : Expr)
    (he : freeSymbols e = []) : substAll e pts = e := by
  induction pts with
  | nil => rfl
  | cons p rest ih =>
      show substAll (subs e p.1 (.num p.2)) rest = e
      rw [subs_not_free _ _ _ (by simp [he])]
      exact ih

/-! ## Lemmas about decomposition and the expansion map -/

theorem decompose_perm (f : Expr) :
    (decompose_function f).Perm (rawComponents f) :=
  sortAsc_perm lenKey _

theorem mem_decompose {f : Expr} {p : Expr × List String}
    (h : p ∈ decompose_function f) :
    p.1 ∈ preorder f ∧ qualifies p.1 = true ∧ p.2 = freeSymbols p.1 := by
  have h2 : p ∈ rawComponents f := (decompose_perm f).mem_iff.mp h
  simp only [rawComponents, List.mem_map, List.mem_filter] at h2
  obtain ⟨e, ⟨he1, he2⟩, he3⟩ := h2
  subst he3
  exact ⟨he1, he2, rfl⟩

theorem root_mem_decompose {f : Expr} (hq : qualifies f = true) :
    (f, freeSymbols f) ∈ decompose_function f := by
  apply (decompose_perm f).mem_iff.mpr
  simp only [rawComponents, List.mem_map]
  refine ⟨f, ?_, rfl⟩
  rw [List.mem_filter]
  exact ⟨mem_preorder_self f, hq⟩

theorem upsert_mem {m : List (Expr × Expr)} {k v : Expr} {q : Expr × Expr}
    (h : q ∈ upsert m k v) : q ∈ m ∨ q = (k, v) := by
  unfold upsert at h
  split at h
  · rcases List.mem_map.mp h with ⟨p, hp, hq⟩
    by_cases hk : p.1 = k
    · right; rw [← hq]; simp [hk]
    · left; rw [← hq]; simpa [hk] using hp
  · rcases List.mem_append.mp h with h | h
    · exact Or.inl h
    · right; simpa using h

theorem upsert_mem_self (m : List (Expr × Expr)) (k v : Expr) :
    (k, v) ∈ upsert m k v := by
  unfold upsert
  split
  · rename_i hany
    rcases List.any_eq_true.mp hany with ⟨p, hp, hpk⟩
    apply List.mem_map.mpr
    refine ⟨p, hp, ?_⟩
    simp [of_decide_eq_true hpk]
  · exact List.mem_append.mpr (Or.inr (by simp))

theorem upsert_preserve {m : List (Expr × Expr)} {q : Expr × Expr}
    (hq : q ∈ m) {k v : Expr} (hk : q.1 ≠ k) : q ∈ upsert m k v := by
  unfold upsert
  split
  · apply List.mem_map.mpr
    refine ⟨q, hq, ?_⟩
    simp [hk]
  · exact List.mem_append.mpr (Or.inl hq)

theorem expansionsMap_fold_mem (pts : List (String × ℚ)) (order : ℤ) :
    ∀ (comps : List (Expr × List String)) (m0 : List (Expr × Expr))
      (q : Expr × Expr),
      q ∈ comps.foldl
        (fun m c => upsert m c.1 (expandComponent pts order c.1 c.2)) m0 →
      q ∈ m0 ∨ ∃ c ∈ comps, q = (c.1, expandComponent pts order c.1 c.2) := by
  intro comps
  induction comps with
  | nil => intro m0 q h; exact Or.inl h
  | cons c rest ih =>
      intro m0 q h
      rcases ih _ q h with h1 | h1
      · rcases upsert_mem h1 with h2 | h2
        · exact Or.inl h2
        · exact Or.inr ⟨c, List.mem_cons_self c rest, h2⟩
      · obtain ⟨d, hd, rfl⟩ := h1
        exact Or.inr ⟨d, List.mem_cons_of_mem c hd, rfl⟩

theorem expansionsMap_fold_persist (pts : List (String × ℚ)) (order : ℤ)
    (k : Expr) :
    ∀ (comps : List (Expr × List String)) (m0 : List (Expr × Expr)),
      (∀ d ∈ comps, d.2 = freeSymbols d.1) →
      (k, expandComponent pts order k (freeSymbols k)) ∈ m0 →
      (k, expandComponent pts order k (freeSymbols k)) ∈
        comps.foldl
          (fun m c => upsert m c.1 (expandComponent pts order c.1 c.2)) m0 := by
  intro comps
  induction comps with
  | nil => intro m0 _ h; exact h
  | cons c rest ih =>
      intro m0 hfs h
      refine ih _ (fun d hd => hfs d (List.mem_cons_of_mem c hd)) ?_
      by_cases hk : c.1 = k
      · have hc2 : c.2 = freeSymbols c.1 := hfs c (List.mem_cons_self c rest)
        have : (c.1, expandComponent pts order c.1 c.2) =
            (k, expandComponent pts order k (freeSymbols k)) := by
          rw [hc2, hk]
        rw [← this]
        exact upsert_mem_self _ _ _
      · exact upsert_preserve h (by simpa using fun hh => hk hh.symm)

theorem expansionsMap_mem_of_comp (pts : List (String × ℚ)) (order : ℤ) :
    ∀ (comps : List (Expr × List String)) (m0 : List (Expr × Expr))
      (c : Expr × List String),
      c ∈ comps → (∀ d ∈ comps, d.2 = freeSymbols d.1) →
      (c.1, expandComponent pts order c.1 (freeSymbols c.1)) ∈
        comps.foldl
          (fun m d => upsert m d.1 (expandComponent pts order d.1 d.2)) m0 := by
  intro comps
  induction comps with
  | nil => intro m0 c hc; simp at hc
  | cons d rest ih =>
      intro m0 c hc hfs
      rcases List.mem_cons.mp hc with rfl | hc
      · have hc2 : c.2 = freeSymbols c.1 := hfs c (List.mem_cons_self c rest)
        refine expansionsMap_fold_persist pts order c.1 rest _
          (fun d hd => hfs d (List.mem_cons_of_mem c hd)) ?_
        rw [← hc2]
        exact upsert_mem_self _ _ _
      · exact ih _ c hc fun d2 hd2 => hfs d2 (List.mem_cons_of_mem d hd2)

theorem calc_series_fst (f : Expr) (vars : List String)
    (pts : List (String × ℚ)) (order : ℤ) :
    (calculate_series f vars pts order).1 =
      substitute_expansions f
        (expansionsMap (decompose_function f) pts order) := by
  suffices h : ∀ (comps : List (Expr × List String))
      (m : List (Expr × Expr)) (st : List Step),
      (comps.foldl
        (fun (acc : List (Expr × Expr) × List Step) c =>
          let ce := expandComponent pts order c.1 c.2
          (upsert acc.1 c.1 ce,
            acc.2 ++ [Step.expansion (pstr c.1) (pstr ce)])) (m, st)).1 =
        comps.foldl (fun m c => upsert m c.1 (expandComponent pts order c.1 c.2)) m by
    show substitute_expansions f
        ((decompose_function f).foldl _ ([], [])).1 = _
    rw [h]
    rfl
  intro comps
  induction comps with
  | nil => intro m st; rfl
  | cons c rest ih => intro m st; exact ih _ _

/-! ## The identity tail of the back-substitution fold -/

theorem subsExpr_id_of_var_gone {E k : Expr} {d : String}
    (hd : d ∈ freeSymbols k) (hE : d ∉ freeSymbols E) (n : Expr) :
    subsExpr E k n = E := by
  apply subsExpr_not_occurs
  intro s hs hsk
  subst hsk
  exact hE (fs_of_subtree E s hs d hd)

theorem subst_fold_id (pts : List (String × ℚ)) :
    ∀ (l : List (Expr × Expr)) (E : Expr),
      (∀ q ∈ l, q.2 = expandComponent pts 0 q.1 (freeSymbols q.1)) →
      (∀ p ∈ pts, p.1 ∉ freeSymbols E) →
      l.foldl (fun r q => subsExpr r q.1 q.2) E = E := by
  intro l
  induction l with
  | nil => intro E _ _; rfl
  | cons q rest ih =>
      intro E hq hE
      have hstep : subsExpr E q.1 q.2 = E := by
        by_cases hocc : ∃ p ∈ pts, p.1 ∈ freeSymbols q.1
        · obtain ⟨p, hp, hpq⟩ := hocc
          exact subsExpr_id_of_var_gone hpq (hE p hp) q.2
        · push_neg at hocc
          have hval : q.2 = q.1 := by
            rw [hq q (List.mem_cons_self q rest)]
            exact expandComponent_no_vars pts 0 q.1 _ hocc
          rw [hval]
          exact subsExpr_self E q.1
      show rest.foldl _ (subsExpr E q.1 q.2) = E
      rw [hstep]
      exact ih E (fun p hp => hq p (List.mem_cons_of_mem q hp)) hE

/-! ## The zeroth-order pipeline result -/

theorem calculate_series_order0 (f : Expr) (vars : List String)
    (pts : List (String × ℚ)) (hf : isAtom f = false) :
    (calculate_series f vars pts 0).1 = substAll f pts := by
  rw [calc_series_fst]
  by_cases hfs : freeSymbols f = []
  · have hraw : rawComponents f = [] := by
      rw [rawComponents]
      have hfil : (preorder f).filter qualifies = [] := by
        rw [List.filter_eq_nil_iff]
        intro s hs
        have hsf : freeSymbols s = [] := by
          cases hfss : freeSymbols s with
          | nil => rfl
          | cons y ys =>
              have hy : y ∈ freeSymbols f :=
                fs_of_subtree f s hs y (by rw [hfss]; exact List.mem_cons_self y ys)
              rw [hfs] at hy
              simp at hy
        simp [qualifies, hsf]
      rw [hfil]
      rfl
    have hdec : decompose_function f = [] := by
      rw [decompose_function, hraw]
      rfl
    rw [hdec, substAll_closed pts f hfs]
    rfl
  · have hq : qualifies f = true := by
      simp only [qualifies, hf, Bool.not_false, Bool.true_and,
        Bool.not_eq_true']
      rw [List.isEmpty_eq_false_iff_exists_mem]
      cases hfss : freeSymbols f with
      | nil => exact absurd hfss hfs
      | cons y ys => exact ⟨y, List.mem_cons_self y ys⟩
    have hall : ∀ d ∈ decompose_function f, d.2 = freeSymbols d.1 :=
      fun d hd => (mem_decompose hd).2.2
    have hrootM : (f, expandComponent pts 0 f (freeSymbols f)) ∈
        expansionsMap (decompose_function f) pts 0 :=
      expansionsMap_mem_of_comp pts 0 (decompose_function f) []
        (f, freeSymbols f) (root_mem_decompose hq) hall
    have hperm := sortDesc_perm lenKey (expansionsMap (decompose_function f) pts 0)
    have hsorted := sortDesc_sorted lenKey (expansionsMap (decompose_function f) pts 0)
    rw [substitute_expansions]
    cases hL : sortDesc lenKey (expansionsMap (decompose_function f) pts 0) with
    | nil =>
        exfalso
        rw [hL] at hperm
        rw [← hperm.mem_iff] at hrootM
        simp at hrootM
    | cons h0 t =>
        rw [hL] at hperm hsorted
        have hh0M : h0 ∈ expansionsMap (decompose_function f) pts 0 :=
          hperm.mem_iff.mp (List.mem_cons_self h0 t)
        obtain ⟨c, hc, hh0⟩ :
            ∃ c ∈ decompose_function f,
              h0 = (c.1, expandComponent pts 0 c.1 c.2) := by
          rcases expansionsMap_fold_mem pts 0 (decompose_function f) [] h0 hh0M
            with h | h
          · simp at h
          · exact h
        have hcfacts := mem_decompose hc
        have hroot_in : (f, expandComponent pts 0 f (freeSymbols f)) ∈ h0 :: t :=
          hperm.mem_iff.mpr hrootM
        have hh01 : c.1 = f := by
          rcases List.mem_cons.mp hroot_in with heq | hmem
          · rw [hh0] at heq
            exact (congrArg Prod.fst heq).symm
          · have hle : lenKey (f, expandComponent pts 0 f (freeSymbols f)) ≤
                lenKey h0 := (List.pairwise_cons.mp hsorted).1 _ hmem
            rcases strLen_preorder f c.1 hcfacts.1 with heq | hlt
            · exact heq
            · exfalso
              rw [hh0] at hle
              simp only [lenKey] at hle hlt
              omega
        have hh0full : h0 = (f, expandComponent pts 0 f (freeSymbols f)) := by
          rw [hh0, hcfacts.2.2, hh01]
        rw [hh0full]
        show t.foldl _ (subsExpr f f (expandComponent pts 0 f (freeSymbols f))) = _
        rw [subsExpr_root, expandComponent_order0 pts f]
        apply subst_fold_id
        · intro q hqt
          have hqM : q ∈ expansionsMap (decompose_function f) pts 0 :=
            hperm.mem_iff.mp (List.mem_cons_of_mem h0 hqt)
          obtain ⟨d, hd, rfl⟩ :
              ∃ d ∈ decompose_function f,
                q = (d.1, expandComponent pts 0 d.1 d.2) := by
            rcases expansionsMap_fold_mem pts 0 (decompose_function f) [] q hqM
              with h | h
            · simp at h
            · exact h
          show expandComponent pts 0 d.1 d.2 = _
          rw [(mem_decompose hd).2.2]
        · intro p hp
          exact substAll_kills pts f p hp

/-! ## The verified claims -/

/-- C1: for every expression `f`, variable `v`, point `a` and integer
order `m ≥ 0`, `compute_univariate_taylor(f, v, a, m)` returns the
truncated Taylor sum `Σ_{n=0}^{m} (dⁿf/dvⁿ at v = a) / n! · (v − a)ⁿ`
(the term shape follows the specification's own algorithm,
`value · (v − a)ⁿ / n!`); in particular for `m = 0` it returns `f`
evaluated at `v = a`, which is constant in `v`. -/
theorem compute_univariate_taylor_is_taylor_sum (f : Expr) (v : String)
    (a : ℚ) (m : ℤ) (hm : 0 ≤ m) :
    compute_univariate_taylor f v a m = taylorSum f v a m.toNat ∧
    compute_univariate_taylor f v a 0 = subs f v (.num a) ∧
    v ∉ freeSymbols (subs f v (.num a)) :=
  ⟨taylor_toNat f v a m hm, taylor_order0 f v a,
    subs_kills v (.num a) (by simp [freeSymbols]) f⟩

theorem compute_univariate_taylor_is_taylor_sum_witness :
    (0 : ℤ) ≤ 3 ∧
    (compute_univariate_taylor (.sin (.var "x")) "x" 0 3 =
        taylorSum (.sin (.var "x")) "x" 0 (3 : ℤ).toNat ∧
      compute_univariate_taylor (.sin (.var "x")) "x" 0 0 =
        subs (.sin (.var "x")) "x" (.num 0) ∧
      "x" ∉ freeSymbols (subs (.sin (.var "x")) "x" (.num 0))) :=
  ⟨by decide,
    compute_univariate_taylor_is_taylor_sum (.sin (.var "x")) "x" 0 3 (by decide)⟩

/-- C2 counterexample: for `f = x*y` about `x = 1, y = 1` at order 2,
`calculate_series` returns `1 + x - 1 + (1 + x - 1)*(y - 1)` — not
equal to its canonical simplification (`x*y`), so the orchestrator does
not return the simplified expression. -/
theorem calculate_series_unsimplified_counterexample :
    (calculate_series (mkMul (.var "x") (.var "y")) ["x", "y"]
        [("x", 1), ("y", 1)] 2).1 ≠
      simplify ((calculate_series (mkMul (.var "x") (.var "y")) ["x", "y"]
        [("x", 1), ("y", 1)] 2).1) := by decide

/-- C2 amended: `calculate_series` returns the back-substituted
expression *unsimplified* — exactly the output of
`substitute_expansions` — together with the trace; the adapter's
canonical simplification is applied afterwards by the route handler
`calculate`, whose result field is the printed simplification of the
orchestrator's expression. -/
theorem calculate_series_returns_unsimplified (f : Expr) (vars : List String)
    (pts : List (String × ℚ)) (order : ℤ) :
    (calculate_series f vars pts order).1 =
      substitute_expansions f (expansionsMap (decompose_function f) pts order) ∧
    (calculate f vars pts order).2 =
      pstr (simplify ((calculate_series f vars pts order).1)) :=
  ⟨calc_series_fst f vars pts order, rfl⟩

/-- C3 counterexample: for the atomic input `f = x` with declared
variable `x`, point `x = 3` and order 0, the decomposition is empty, so
nothing is substituted: the result is `x`, not the point value `3`
demanded by the claim. -/
theorem order0_point_evaluation_counterexample :
    (calculate_series (.var "x") ["x"] [("x", 3)] 0).1 = .var "x" ∧
    substAll (.var "x") [("x", 3)] = .num 3 ∧
    (calculate_series (.var "x") ["x"] [("x", 3)] 0).1 ≠
      substAll (.var "x") [("x", 3)] := by decide

/-- C3 amended: for all inputs with order 0 whose expression is not an
atom (a bare symbol or number), the result of `calculate_series` equals
the original expression with every declared variable substituted by its
expansion point; for an atomic expression the decomposition is empty
and the expression is returned unchanged. -/
theorem order0_point_evaluation (f : Expr) (vars : List String)
    (pts : List (String × ℚ)) (hf : isAtom f = false) :
    (calculate_series f vars pts 0).1 = substAll f pts :=
  calculate_series_order0 f vars pts hf

theorem order0_point_evaluation_witness :
    isAtom (mkMul (.var "x") (.var "y")) = false ∧
    (calculate_series (mkMul (.var "x") (.var "y")) ["x", "y"]
        [("x", 1), ("y", 2)] 0).1 =
      substAll (mkMul (.var "x") (.var "y")) [("x", 1), ("y", 2)] :=
  ⟨by decide,
    order0_point_evaluation (mkMul (.var "x") (.var "y")) ["x", "y"]
      [("x", 1), ("y", 2)] (by decide)⟩

/-- C4 counterexample: with two declared variables but a single
expansion point, `parse_inputs` succeeds — returning 2 variables and 1
point — instead of failing as the claim requires. -/
theorem parse_inputs_count_mismatch_counterexample :
    parse_inputs "x" "x,y" "x=1" =
      .ok (.var "x", ["x", "y"], [("x", .finite 1)]) ∧
    ["x", "y"].length ≠ [("x", PyFloat.finite 1)].length := by decide

/-- C4 amended: `parse_inputs` parses its three inputs independently and
never compares the number of expansion points with the number of
declared variables; well-formed inputs with mismatched counts are
returned successfully in either direction (more points than variables,
or more variables than points). -/
theorem parse_inputs_no_count_check :
    parse_inputs "x" "x" "x=1;y=2" =
      .ok (.var "x", ["x"], [("x", .finite 1), ("y", .finite 2)]) ∧
    parse_inputs "x" "x,y,z" "x=1" =
      .ok (.var "x", ["x", "y", "z"], [("x", .finite 1)]) := by decide

/-- C5 counterexample: an expansion segment naming the undeclared
variable `y` is accepted: `parse_inputs` succeeds and returns the pair
`(y, 1.0)` although `y` is not among the declared variables. -/
theorem parse_inputs_undeclared_counterexample :
    parse_inputs "x" "x" "y=1" = .ok (.var "x", ["x"], [("y", .finite 1)]) ∧
    "y" ∉ ["x"] := by decide

/-- C5 amended: `parse_inputs` creates a fresh symbol for each
expansion-segment name without checking membership in the declared
variable list; segments naming undeclared variables parse
successfully. -/
theorem parse_inputs_no_membership_check :
    parse_inputs "x" "x" "z=2;w=3" =
      .ok (.var "x", ["x"], [("z", .finite 2), ("w", .finite 3)]) ∧
    "z" ∉ ["x"] ∧ "w" ∉ ["x"] := by decide

/-- C6 counterexample: the token `inf` parses under Python `float`, so
`parse_inputs` accepts the expansion point `x=inf` and returns a
non-finite point instead of failing. -/
theorem parse_inputs_inf_accepted_counterexample :
    parse_inputs "x" "x" "x=inf" = .ok (.var "x", ["x"], [("x", .inf)]) ∧
    PyFloat.inf.isFinite = false := by decide

/-- C6 amended: `parse_inputs` fails when the numeric token is not
accepted by Python's `float`, but `float` itself accepts
`inf`/`infinity`/`nan` (case-insensitively, with optional sign), so
non-finite expansion points are accepted, never rejected. -/
theorem parse_inputs_float_token_behaviour :
    parse_inputs "x" "x" "x=abc" =
      .error "Input parsing error: could not convert string to float" ∧
    parse_inputs "x" "x" "x=nan" = .ok (.var "x", ["x"], [("x", .nan)]) ∧
    parse_inputs "x" "x" "x=-Infinity" =
      .ok (.var "x", ["x"], [("x", .ninf)]) :=
  ⟨by decide, by decide, by decide⟩

/-- C7 counterexample: taking `["x"]` as the declared variables and
decomposing `sin(y) + x`, the returned list contains the node `sin(y)`
whose only free variable `y` is not declared — the code collects every
node with *any* free symbol, not only declared ones. -/
theorem decompose_undeclared_node_counterexample :
    (Expr.sin (.var "y"), ["y"]) ∈
      decompose_function (mkAdd (.sin (.var "y")) (.var "x")) ∧
    freeSymbols (Expr.sin (.var "y")) = ["y"] ∧
    "y" ∉ ["x"] := by decide

/-- C7 amended: `decompose_function` returns exactly the non-leaf nodes
of the traversal that have at least one free variable — declared or not
— each paired with its free-variable list, sorted by ascending textual
length with ties kept in traversal order: the output is sorted by
`lenKey`, within every length class it coincides with the unsorted
traversal-ordered list, and every entry is a qualifying node. -/
theorem decompose_sorted_and_stable (f : Expr) :
    (decompose_function f).Pairwise (fun a b => lenKey a ≤ lenKey b) ∧
    (∀ k : ℕ, (decompose_function f).filter (fun p => lenKey p == k) =
      (rawComponents f).filter (fun p => lenKey p == k)) ∧
    ∀ p ∈ decompose_function f,
      isAtom p.1 = false ∧ p.2 = freeSymbols p.1 ∧ p.2 ≠ [] ∧
        p.1 ∈ preorder f := by
  refine ⟨sortAsc_sorted lenKey _, fun k => sortAsc_filter lenKey k _, ?_⟩
  intro p hp
  have h := mem_decompose hp
  have hq := h.2.1
  simp only [qualifies, Bool.and_eq_true, Bool.not_eq_true'] at hq
  refine ⟨hq.1, h.2.2, ?_, h.1⟩
  rw [h.2.2]
  intro hnil
  rw [hnil] at hq
  simp at hq

/-- C8 counterexample: in `sin(x)*cos(x) + sin(x)` the subexpression
`sin(x)` occurs at two tree positions and accordingly appears twice in
the component list — the list is not a set. -/
theorem decompose_duplicates_counterexample :
    (decompose_function
        (mkAdd (mkMul (.sin (.var "x")) (.cos (.var "x")))
          (.sin (.var "x")))).count (Expr.sin (.var "x"), ["x"]) = 2 := by
  decide

/-- C8 amended: the component list has one entry per qualifying tree
position: every pair occurs in the output of `decompose_function`
exactly as often as in the position-by-position traversal list, so a
subexpression occurring at several positions is listed once per
position, without deduplication. -/
theorem decompose_counts_positions (f : Expr) (p : Expr × List String) :
    (decompose_function f).count p = (rawComponents f).count p := by
  simp only [List.count]
  exact (decompose_perm f).countP_eq _

/-- C9: for the input function `sin(x)`, variable `x`, point `0` and
order `3`, the pipeline's final result is equal after simplification to
`x − x³/6`: the route handler's result string is the printed
simplification of that expression, and the orchestrator's expression
has the same canonical simplification as `x − x³/6`. -/
theorem pipeline_sin_order3 :
    (calculate (.sin (.var "x")) ["x"] [("x", 0)] 3).2 =
      pstr (simplify (mkSub (.var "x")
        (mkDiv (mkPow (.var "x") (.num 3)) (.num 6)))) ∧
    simplify ((calculate_series (.sin (.var "x")) ["x"] [("x", 0)] 3).1) =
      simplify (mkSub (.var "x")
        (mkDiv (mkPow (.var "x") (.num 3)) (.num 6))) := by decide

/-- C10: for every expression, variable and point, a negative order
makes `range(order + 1)` empty, so the loop body never runs and
`compute_univariate_taylor` returns the initial accumulator, the
constant `0`, without error. -/
theorem compute_univariate_taylor_negative_order (f : Expr) (v : String)
    (a : ℚ) (order : ℤ) (h : order < 0) :
    compute_univariate_taylor f v a order = .num 0 := by
  rw [compute_univariate_taylor]
  have h0 : (order + 1).toNat = 0 := by omega
  rw [h0]
  rfl

theorem compute_univariate_taylor_negative_order_witness :
    (-1 : ℤ) < 0 ∧
    compute_univariate_taylor (.sin (.var "x")) "x" 2 (-1) = .num 0 :=
  ⟨by decide,
    compute_univariate_taylor_negative_order (.sin (.var "x")) "x" 2 (-1)
      (by decide)⟩

end TaylorCalc
